import Mathlib

/-!
# Verification of the datastore derivation engine

A shallow embedding of the code generated by the `StoreData` derive macro
(`datastore_derive/src/storedata.rs`) together with the runtime contracts it
targets (`datastore/src/lib.rs`).

Modelling choices:

* A record instance of a derived struct is its ordered field list: a
  `List (String × V)` pairing each declared field name with its value, in
  declaration order.  The abstract value type `V` stands for the (heterogeneous)
  Rust field values; the claims under study never inspect values.
* A backend `Writer` is a state type `σ` together with a
  `write_field : String → V → σ → Except E σ` operation; a `Reader` is
  `read_field : String → σ → Except E (V × σ)`.  `E` is the backend error type.
* The straight-line code emitted by the macro (`writer.write_field(name, &self.f)?;`
  per field, then `Ok(())`) is embedded as an interpreter that also returns the
  trace of `write_field` calls actually issued, so that call-sequence claims
  (order, arity, abort-on-first-error) are stated directly.
* `expand_trait_bounds` is the capability aggregator: the `Vec::contains`/`push`
  loop from the source, over an abstract type `α` of Rust type references with
  decidable (structural) equality.
* The `#[datastore(name = "...")]` attribute handling is embedded from
  `Attrs::name` (`find?` of the first name attribute) and the
  `match name { Some(n) => n, _ => ident }` fallback in
  `expand_datadescriptor_impl`.
-/

namespace Datastore

/-- The closed set of scalar type tags of the wire model
(`Writer`/`TypeWriter` methods in `datastore/src/lib.rs`). -/
inductive Tag where
  | bool
  | i8
  | i16
  | i32
  | i64
  | u8
  | u16
  | u32
  | u64
  | f32
  | f64
  | bytes
  | str
deriving DecidableEq, Repr

/-- Embedding of `expand_trait_bounds` (storedata.rs lines 212-225): the
`for ty in types { if !bounds.contains(ty) { bounds.push(ty.clone()) } }` loop
collecting the distinct field types, as a left fold. -/
def expand_trait_bounds {α : Type} [DecidableEq α] (types : List α) : List α :=
  types.foldl (fun bounds ty => if ty ∈ bounds then bounds else bounds ++ [ty]) []

/-- Spec-side definition for the refinement part of the capability-aggregation
claim, following the spec words "duplicates removed, keeping the first
occurrence of each distinct type in order": keep the head, drop every later
occurrence of it, recurse. -/
def specDedupFirstOccurrence {α : Type} [DecidableEq α] : List α → List α
  | [] => []
  | a :: l => a :: specDedupFirstOccurrence (l.filter (fun b => b ≠ a))
termination_by l => l.length
decreasing_by
  simp only [List.length_cons]
  exact Nat.lt_succ_of_le (List.length_filter_le _ _)

/-- The straight-line body of the synthesized `StoreData::write`
(storedata.rs lines 55-61 and 83-90): one `writer.write_field(name, &self.f)?;`
statement per field, then `Ok(())`.  The interpreter takes the backend
`write_field` operation `wf` over writer state `σ` and returns both the trace
of `write_field` calls actually issued (name/value pairs, in issue order) and
the outcome. -/
def writeFields {V E σ : Type} (wf : String → V → σ → Except E σ) :
    List (String × V) → σ → List (String × V) × Except E σ
  | [], s => ([], Except.ok s)
  | (n, v) :: rest, s =>
    match wf n v s with
    | Except.error e => ([(n, v)], Except.error e)
    | Except.ok s₁ =>
      let r := writeFields wf rest s₁
      ((n, v) :: r.1, r.2)

/-- Synthesized `StoreData::write` applied to a record instance `x`, given as
its ordered field list (declaration order). -/
def storeData_write {V E σ : Type} (wf : String → V → σ → Except E σ)
    (x : List (String × V)) (s : σ) : List (String × V) × Except E σ :=
  writeFields wf x s

/-- Synthesized `Descriptor::write` (storedata.rs lines 116-123 and 143-150):
one `writer.write_field::<Ty>(name)?;` statement per field.  Its input is the
type-level field list only — field names paired with the static shape `T`
reported by each field type — and no record instance. -/
def descriptor_write {T E σ : Type} (tw : String → T → σ → Except E σ)
    (fields : List (String × T)) (s : σ) : List (String × T) × Except E σ :=
  writeFields tw fields s

/-- The field-reading prefix of the synthesized `StoreData::read`
(storedata.rs lines 63-69): one `let f = reader.read_field(name)?;` statement
per field.  Returns the trace of `read_field` calls issued and, on success, the
values bound to the locals, in read order. -/
def readFields {V E σ : Type} (rf : String → σ → Except E (V × σ)) :
    List String → σ → List String × Except E (List V × σ)
  | [], s => ([], Except.ok ([], s))
  | n :: rest, s =>
    match rf n s with
    | Except.error e => ([n], Except.error e)
    | Except.ok (v, s₁) =>
      match readFields rf rest s₁ with
      | (tr, Except.error e) => (n :: tr, Except.error e)
      | (tr, Except.ok (vs, s₂)) => (n :: tr, Except.ok (v :: vs, s₂))

/-- Synthesized `StoreData::read` (storedata.rs lines 92-101): read every field
in declaration order, then — only if all reads succeeded — construct the record
`Self { f1, ..., fn }`, binding each read value to its field in that same
order (modelled as zipping the declared names with the bound values). -/
def storeData_read {V E σ : Type} (rf : String → σ → Except E (V × σ))
    (names : List String) (s : σ) : Except E (List (String × V) × σ) :=
  match (readFields rf names s).2 with
  | Except.error e => Except.error e
  | Except.ok (vs, s₁) => Except.ok (names.zip vs, s₁)

/-- The straight-line body of the synthesized `Query::write`
(storedata.rs lines 175-183 and 200-207): per field in declaration order,
`if let Some(value) = self.f.as_ref() { writer.write_field(name, value)?; }` —
a set slot issues one call, an unset slot issues nothing. -/
def queryWriteFields {V E σ : Type} (wf : String → V → σ → Except E σ) :
    List (String × Option V) → σ → List (String × V) × Except E σ
  | [], s => ([], Except.ok s)
  | (_, none) :: rest, s => queryWriteFields wf rest s
  | (n, some v) :: rest, s =>
    match wf n v s with
    | Except.error e => ([(n, v)], Except.error e)
    | Except.ok s₁ =>
      let r := queryWriteFields wf rest s₁
      ((n, v) :: r.1, r.2)

/-- Synthesized `Query::write` for a query whose slot list `slots` is parallel
to the declared field names `names`. -/
def query_write {V E σ : Type} (wf : String → V → σ → Except E σ)
    (names : List String) (slots : List (Option V)) (s : σ) :
    List (String × V) × Except E σ :=
  queryWriteFields wf (names.zip slots) s

/-- A synthesized fluent setter (storedata.rs lines 166-173): field `i`'s
setter stores `Some(t)` in slot `i` of the builder and returns it. -/
def query_set {V : Type} (slots : List (Option V)) (i : Nat) (v : V) :
    List (Option V) :=
  slots.set i (some v)

/-- A chain of fluent setter calls, applied left to right. -/
def query_apply {V : Type} (slots : List (Option V)) (sets : List (Nat × V)) :
    List (Option V) :=
  sets.foldl (fun q p => query_set q p.1 p.2) slots

/-- A fresh query: `#[derive(Default)]` (storedata.rs line 186) gives every
`Option` slot its default, `None`. -/
def query_fresh (V : Type) (n : Nat) : List (Option V) :=
  List.replicate n none

/-- The recording writer: a lossless sink that accepts every `write_field` call
and appends the written pair to its log. -/
def logWriter {V E : Type} : String → V → List (String × V) → Except E (List (String × V)) :=
  fun n v s => Except.ok (s ++ [(n, v)])

/-- Reading side of a lossless channel `c`: `read_field(name)` returns exactly
the value the channel holds under `name` (the first pair written under that
name), and fails with `e` only if the channel holds no such field. -/
def losslessChannelRead {V E : Type} (c : List (String × V)) (e : E) :
    String → Unit → Except E (V × Unit) :=
  fun n s =>
    match c.lookup n with
    | some v => Except.ok (v, s)
    | none => Except.error e

/-- Embedding of the `Attr` enumeration (storedata.rs lines 227-230): the only
attribute the parser accepts is `name = "..."`. -/
inductive Attr where
  | name : String → Attr
deriving DecidableEq, Repr

/-- The `matches!(attr, Attr::Name(_))` predicate used by `Attrs::name`. -/
def Attr.isName : Attr → Bool
  | Attr.name _ => true

/-- Embedding of `Attrs::name` (storedata.rs lines 269-277): find the first
`Name` attribute in the collected list and return its payload. -/
def Attrs.name (attrs : List Attr) : Option String :=
  (attrs.find? Attr.isName).map (fun a => match a with | Attr.name s => s)

/-- The resolved identifier returned by the synthesized `Descriptor::ident`
(storedata.rs lines 125-128 and 139-141): the name override if present,
otherwise the record type's own local identifier. -/
def descriptor_ident (attrs : List Attr) (localIdent : String) : String :=
  match Attrs.name attrs with
  | some n => n
  | none => localIdent

/-- A concrete backend writer used to exercise the error path in witnesses: it
rejects the value `0` and logs every other write. -/
def failOnZeroWriter : String → Nat → List (String × Nat) → Except Unit (List (String × Nat)) :=
  fun n v s => if v = 0 then Except.error () else Except.ok (s ++ [(n, v)])

/-- A concrete backend reader used to exercise the error path in witnesses: its
state is a countdown of remaining successful reads. -/
def countdownReader : String → Nat → Except Unit (Nat × Nat) :=
  fun _ s => if s = 0 then Except.error () else Except.ok (7, s - 1)

section TraitBounds

variable {α : Type} [DecidableEq α]

theorem expand_trait_bounds_foldl_acc (l : List α) :
    ∀ acc : List α,
      l.foldl (fun bounds ty => if ty ∈ bounds then bounds else bounds ++ [ty]) acc
        = acc ++ specDedupFirstOccurrence (l.filter (fun b => b ∉ acc)) := by
  induction l with
  | nil => intro acc; simp [specDedupFirstOccurrence]
  | cons a l ih =>
    intro acc
    by_cases ha : a ∈ acc
    · simp only [List.foldl_cons, if_pos ha]
      rw [ih acc]
      congr 2
      simp only [List.filter_cons]
      rw [if_neg (by simp [ha])]
    · simp only [List.foldl_cons, if_neg ha]
      rw [ih (acc ++ [a])]
      simp only [List.filter_cons]
      rw [if_pos (by simp [ha])]
      rw [specDedupFirstOccurrence]
      have hfilter :
          (l.filter (fun b => b ∉ acc)).filter (fun b => b ≠ a)
            = l.filter (fun b => b ∉ acc ++ [a]) := by
        rw [List.filter_filter]
        apply List.filter_congr
        intro x _
        simp [List.mem_append, and_comm, and_congr_left_iff]
      rw [hfilter]
      simp [List.append_assoc]

theorem expand_trait_bounds_eq_spec (l : List α) :
    expand_trait_bounds l = specDedupFirstOccurrence l := by
  rw [expand_trait_bounds, expand_trait_bounds_foldl_acc l []]
  simp

theorem specDedupFirstOccurrence_length_le (l : List α) :
    (specDedupFirstOccurrence l).length ≤ l.length := by
  have key : ∀ (n : Nat) (l : List α), l.length ≤ n →
      (specDedupFirstOccurrence l).length ≤ l.length := by
    intro n
    induction n with
    | zero =>
      intro l hl
      rw [List.length_eq_zero.mp (Nat.le_zero.mp hl)]
      simp [specDedupFirstOccurrence]
    | succ n ih =>
      intro l hl
      cases l with
      | nil => simp [specDedupFirstOccurrence]
      | cons a t =>
        rw [specDedupFirstOccurrence]
        simp only [List.length_cons] at hl ⊢
        have hle : (t.filter (fun b => b ≠ a)).length ≤ t.length :=
          List.length_filter_le _ _
        have := ih (t.filter (fun b => b ≠ a)) (Nat.le_trans hle (Nat.le_of_succ_le_succ hl))
        omega
  exact key l.length l le_rfl

theorem specDedupFirstOccurrence_mem (l : List α) (a : α) :
    a ∈ specDedupFirstOccurrence l ↔ a ∈ l := by
  have key : ∀ (n : Nat) (l : List α), l.length ≤ n →
      (a ∈ specDedupFirstOccurrence l ↔ a ∈ l) := by
    intro n
    induction n with
    | zero =>
      intro l hl
      rw [List.length_eq_zero.mp (Nat.le_zero.mp hl)]
      simp [specDedupFirstOccurrence]
    | succ n ih =>
      intro l hl
      cases l with
      | nil => simp [specDedupFirstOccurrence]
      | cons x t =>
        rw [specDedupFirstOccurrence]
        simp only [List.length_cons] at hl
        have hle : (t.filter (fun b => b ≠ x)).length ≤ n :=
          Nat.le_trans (List.length_filter_le _ _) (Nat.le_of_succ_le_succ hl)
        rw [List.mem_cons, ih _ hle, List.mem_filter, List.mem_cons]
        by_cases hax : a = x
        · simp [hax]
        · simp [hax]
  exact key l.length l le_rfl

theorem specDedupFirstOccurrence_nodup (l : List α) :
    (specDedupFirstOccurrence l).Nodup := by
  have key : ∀ (n : Nat) (l : List α), l.length ≤ n →
      (specDedupFirstOccurrence l).Nodup := by
    intro n
    induction n with
    | zero =>
      intro l hl
      rw [List.length_eq_zero.mp (Nat.le_zero.mp hl)]
      simp [specDedupFirstOccurrence]
    | succ n ih =>
      intro l hl
      cases l with
      | nil => simp [specDedupFirstOccurrence]
      | cons x t =>
        rw [specDedupFirstOccurrence]
        simp only [List.length_cons] at hl
        have hle : (t.filter (fun b => b ≠ x)).length ≤ n :=
          Nat.le_trans (List.length_filter_le _ _) (Nat.le_of_succ_le_succ hl)
        refine List.nodup_cons.mpr ⟨?_, ih _ hle⟩
        rw [specDedupFirstOccurrence_mem]
        intro hx
        have := (List.mem_filter.mp hx).2
        simp at this
  exact key l.length l le_rfl

theorem specDedupFirstOccurrence_of_nodup (l : List α) (h : l.Nodup) :
    specDedupFirstOccurrence l = l := by
  induction l with
  | nil => simp [specDedupFirstOccurrence]
  | cons a t ih =>
    rw [specDedupFirstOccurrence]
    rcases List.nodup_cons.mp h with ⟨ha, ht⟩
    have : t.filter (fun b => b ≠ a) = t := by
      apply List.filter_eq_self.mpr
      intro x hx
      simp only [ne_eq, decide_eq_true_eq]
      intro hxa
      exact ha (hxa ▸ hx)
    rw [this, ih ht]

/-- C4: the capability aggregation step (`expand_trait_bounds`) deduplicates the
ordered list of field type references keeping the first occurrence of each
distinct type in order: it refines the spec-side first-occurrence dedup, its
output is no longer than its input, it is idempotent, deterministic on equal
inputs, and yields exactly one requirement per distinct type present. -/
theorem C4_capability_aggregation {α : Type} [DecidableEq α] (l l₁ l₂ : List α) (a : α)
    (hdet : l₁ = l₂) :
    expand_trait_bounds l = specDedupFirstOccurrence l ∧
    (expand_trait_bounds l).length ≤ l.length ∧
    expand_trait_bounds (expand_trait_bounds l) = expand_trait_bounds l ∧
    expand_trait_bounds l₁ = expand_trait_bounds l₂ ∧
    (expand_trait_bounds l).count a = if a ∈ l then 1 else 0 := by
  refine ⟨expand_trait_bounds_eq_spec l, ?_, ?_, by rw [hdet], ?_⟩
  · rw [expand_trait_bounds_eq_spec]
    exact specDedupFirstOccurrence_length_le l
  · rw [expand_trait_bounds_eq_spec, expand_trait_bounds_eq_spec,
      specDedupFirstOccurrence_of_nodup _ (specDedupFirstOccurrence_nodup l)]
  · rw [expand_trait_bounds_eq_spec]
    by_cases hmem : a ∈ l
    · rw [if_pos hmem]
      exact List.count_eq_one_of_mem (specDedupFirstOccurrence_nodup l)
        ((specDedupFirstOccurrence_mem l a).mpr hmem)
    · rw [if_neg hmem]
      exact List.count_eq_zero_of_not_mem
        (fun hc => hmem ((specDedupFirstOccurrence_mem l a).mp hc))

/-- Concrete instantiation of the capability-aggregation theorem: a record with
repeated field types (here `[u64, str, u64, bool, str]`) yields one requirement
per distinct type, first occurrences in order. -/
theorem C4_capability_aggregation_witness :
    ([Tag.u64, Tag.str, Tag.u64, Tag.bool, Tag.str] : List Tag)
      = [Tag.u64, Tag.str, Tag.u64, Tag.bool, Tag.str] ∧
    expand_trait_bounds [Tag.u64, Tag.str, Tag.u64, Tag.bool, Tag.str]
      = specDedupFirstOccurrence [Tag.u64, Tag.str, Tag.u64, Tag.bool, Tag.str] ∧
    (expand_trait_bounds [Tag.u64, Tag.str, Tag.u64, Tag.bool, Tag.str]).length ≤ 5 ∧
    (expand_trait_bounds [Tag.u64, Tag.str, Tag.u64, Tag.bool, Tag.str]).count Tag.str = 1 ∧
    expand_trait_bounds [Tag.u64, Tag.str, Tag.u64, Tag.bool, Tag.str]
      = [Tag.u64, Tag.str, Tag.bool] := by
  have h := C4_capability_aggregation
    [Tag.u64, Tag.str, Tag.u64, Tag.bool, Tag.str]
    [Tag.u64, Tag.str, Tag.u64, Tag.bool, Tag.str]
    [Tag.u64, Tag.str, Tag.u64, Tag.bool, Tag.str] Tag.str rfl
  refine ⟨rfl, h.1, h.2.1, ?_, by decide⟩
  rw [h.2.2.2.2]
  decide

end TraitBounds

section WriteRead

variable {V E T σ : Type}

theorem writeFields_ok_trace (wf : String → V → σ → Except E σ) :
    ∀ (l : List (String × V)) (s s₁ : σ),
      (writeFields wf l s).2 = Except.ok s₁ → (writeFields wf l s).1 = l := by
  intro l
  induction l with
  | nil => intro s s₁ _; rfl
  | cons p t ih =>
    intro s s₁ h
    obtain ⟨n, v⟩ := p
    rw [writeFields] at h ⊢
    cases hwf : wf n v s with
    | error e => rw [hwf] at h; simp at h
    | ok s' =>
      rw [hwf] at h
      replace h : (writeFields wf t s').2 = Except.ok s₁ := h
      show (n, v) :: (writeFields wf t s').1 = (n, v) :: t
      exact congrArg (List.cons (n, v)) (ih s' s₁ h)

theorem writeFields_log (l : List (String × V)) :
    ∀ acc : List (String × V),
      writeFields (logWriter (E := E)) l acc = (l, Except.ok (acc ++ l)) := by
  induction l with
  | nil => intro acc; simp [writeFields]
  | cons p t ih =>
    intro acc
    obtain ⟨n, v⟩ := p
    rw [writeFields]
    simp only [logWriter]
    rw [ih (acc ++ [(n, v)])]
    simp

theorem writeFields_append_ok (wf : String → V → σ → Except E σ) :
    ∀ (l₁ l₂ : List (String × V)) (s s₁ : σ) (tr₁ : List (String × V)),
      writeFields wf l₁ s = (tr₁, Except.ok s₁) →
      writeFields wf (l₁ ++ l₂) s
        = (tr₁ ++ (writeFields wf l₂ s₁).1, (writeFields wf l₂ s₁).2) := by
  intro l₁
  induction l₁ with
  | nil =>
    intro l₂ s s₁ tr₁ h
    rw [writeFields] at h
    obtain ⟨h1, h2⟩ := Prod.mk.injEq .. ▸ h
    cases h
    simp
  | cons p t ih =>
    intro l₂ s s₁ tr₁ h
    obtain ⟨n, v⟩ := p
    rw [writeFields] at h
    rw [List.cons_append, writeFields]
    cases hwf : wf n v s with
    | error e => rw [hwf] at h; simp at h
    | ok s' =>
      rw [hwf] at h
      replace h : ((n, v) :: (writeFields wf t s').1, (writeFields wf t s').2)
          = (tr₁, Except.ok s₁) := h
      have h1 : (n, v) :: (writeFields wf t s').1 = tr₁ := congrArg Prod.fst h
      have h2 : (writeFields wf t s').2 = Except.ok s₁ := congrArg Prod.snd h
      show ((n, v) :: (writeFields wf (t ++ l₂) s').1, (writeFields wf (t ++ l₂) s').2)
          = (tr₁ ++ (writeFields wf l₂ s₁).1, (writeFields wf l₂ s₁).2)
      have hrec := ih l₂ s' s₁ (writeFields wf t s').1 (Prod.ext rfl h2)
      have hfst := congrArg Prod.fst hrec
      have hsnd := congrArg Prod.snd hrec
      simp only at hfst hsnd
      rw [Prod.ext_iff]
      refine ⟨?_, by rw [hsnd]⟩
      simp only [hfst, ← h1, List.cons_append]

/-- C7: the synthesized `StoreData::write` issues exactly one
`write_field(name_i, value_i)` call per field, in field declaration order
(whenever the run succeeds its call trace is exactly the record's ordered field
list), and for a record with zero fields it issues zero calls and returns
success. -/
theorem C7_storedata_write_calls (wf : String → V → σ → Except E σ)
    (x : List (String × V)) (s s₁ : σ) (tr : List (String × V))
    (h : storeData_write wf x s = (tr, Except.ok s₁)) :
    tr = x ∧
    (∀ s₀ : σ, storeData_write wf ([] : List (String × V)) s₀ = ([], Except.ok s₀)) := by
  constructor
  · have htr := congrArg Prod.fst h
    have hok := congrArg Prod.snd h
    simp only [storeData_write] at htr hok
    rw [← htr]
    exact writeFields_ok_trace wf x s s₁ hok
  · intro s₀
    rfl

/-- Witness for C7 at a two-field record and at the empty record, over the
recording writer. -/
theorem C7_storedata_write_calls_witness :
    storeData_write (E := Unit) logWriter [("id", 5), ("name", 7)]
        ([] : List (String × Nat))
      = ([("id", 5), ("name", 7)], Except.ok [("id", 5), ("name", 7)]) ∧
    ([("id", 5), ("name", 7)] : List (String × Nat)) = [("id", 5), ("name", 7)] ∧
    storeData_write (E := Unit) (V := Nat) logWriter [] []
      = ([], Except.ok []) := by
  have h : storeData_write (E := Unit) logWriter [("id", 5), ("name", 7)]
      ([] : List (String × Nat))
      = ([("id", 5), ("name", 7)], Except.ok [("id", 5), ("name", 7)]) := rfl
  have hc := C7_storedata_write_calls (E := Unit) logWriter
    [("id", 5), ("name", 7)] [] [("id", 5), ("name", 7)] [("id", 5), ("name", 7)] h
  exact ⟨h, hc.1, hc.2 []⟩

/-- C2: the synthesized `Descriptor::write` emits exactly the sequence
`[(name_1, tag_1), ..., (name_n, tag_n)]` in field declaration order — its call
trace on any successful run is exactly the type-level field list, and over the
lossless recording sink it emits precisely that list; it takes no record
instance (its input is the field list only), and for zero fields it emits the
empty sequence and succeeds. -/
theorem C2_descriptor_write_emission (tw : String → T → σ → Except E σ)
    (fields : List (String × T)) (s s₁ : σ) (tr : List (String × T))
    (h : descriptor_write tw fields s = (tr, Except.ok s₁)) :
    tr = fields ∧
    descriptor_write (E := E) logWriter fields [] = (fields, Except.ok fields) ∧
    (∀ s₀ : σ, descriptor_write tw ([] : List (String × T)) s₀ = ([], Except.ok s₀)) := by
  refine ⟨?_, ?_, fun s₀ => rfl⟩
  · have htr := congrArg Prod.fst h
    have hok := congrArg Prod.snd h
    simp only [descriptor_write] at htr hok
    rw [← htr]
    exact writeFields_ok_trace tw fields s s₁ hok
  · rw [descriptor_write, writeFields_log]
    simp

/-- Witness for C2 at a record with fields `x : u8`, `y : str` and at the empty
record, over the recording type-writer. -/
theorem C2_descriptor_write_emission_witness :
    descriptor_write (E := Unit) logWriter [("x", Tag.u8), ("y", Tag.str)]
        ([] : List (String × Tag))
      = ([("x", Tag.u8), ("y", Tag.str)], Except.ok [("x", Tag.u8), ("y", Tag.str)]) ∧
    ([("x", Tag.u8), ("y", Tag.str)] : List (String × Tag)) = [("x", Tag.u8), ("y", Tag.str)] ∧
    descriptor_write (E := Unit) (T := Tag) logWriter [] []
      = ([], Except.ok []) := by
  have h : descriptor_write (E := Unit) logWriter [("x", Tag.u8), ("y", Tag.str)]
      ([] : List (String × Tag))
      = ([("x", Tag.u8), ("y", Tag.str)], Except.ok [("x", Tag.u8), ("y", Tag.str)]) := rfl
  have hc := C2_descriptor_write_emission (E := Unit) logWriter
    [("x", Tag.u8), ("y", Tag.str)] [] [("x", Tag.u8), ("y", Tag.str)]
    [("x", Tag.u8), ("y", Tag.str)] h
  exact ⟨h, hc.1, hc.2.2 []⟩

theorem queryWriteFields_append_ok (wf : String → V → σ → Except E σ) :
    ∀ (q₁ q₂ : List (String × Option V)) (s s₁ : σ) (tr₁ : List (String × V)),
      queryWriteFields wf q₁ s = (tr₁, Except.ok s₁) →
      queryWriteFields wf (q₁ ++ q₂) s
        = (tr₁ ++ (queryWriteFields wf q₂ s₁).1, (queryWriteFields wf q₂ s₁).2) := by
  intro q₁
  induction q₁ with
  | nil =>
    intro q₂ s s₁ tr₁ h
    rw [queryWriteFields] at h
    cases h
    simp
  | cons p t ih =>
    intro q₂ s s₁ tr₁ h
    obtain ⟨n, o⟩ := p
    cases o with
    | none =>
      rw [queryWriteFields] at h
      rw [List.cons_append, queryWriteFields]
      exact ih q₂ s s₁ tr₁ h
    | some v =>
      rw [queryWriteFields] at h
      rw [List.cons_append, queryWriteFields]
      cases hwf : wf n v s with
      | error e => rw [hwf] at h; simp at h
      | ok s' =>
        rw [hwf] at h
        replace h : ((n, v) :: (queryWriteFields wf t s').1, (queryWriteFields wf t s').2)
            = (tr₁, Except.ok s₁) := h
        have h1 : (n, v) :: (queryWriteFields wf t s').1 = tr₁ := congrArg Prod.fst h
        have h2 : (queryWriteFields wf t s').2 = Except.ok s₁ := congrArg Prod.snd h
        show ((n, v) :: (queryWriteFields wf (t ++ q₂) s').1,
              (queryWriteFields wf (t ++ q₂) s').2)
            = (tr₁ ++ (queryWriteFields wf q₂ s₁).1, (queryWriteFields wf q₂ s₁).2)
        have hrec := ih q₂ s' s₁ (queryWriteFields wf t s').1 (Prod.ext rfl h2)
        have hfst := congrArg Prod.fst hrec
        have hsnd := congrArg Prod.snd hrec
        simp only at hfst hsnd
        rw [Prod.ext_iff]
        refine ⟨?_, by rw [hsnd]⟩
        simp only [hfst, ← h1, List.cons_append]

theorem readFields_ok_trace (rf : String → σ → Except E (V × σ)) :
    ∀ (l : List String) (s : σ) (vs : List V) (s₁ : σ),
      (readFields rf l s).2 = Except.ok (vs, s₁) →
      (readFields rf l s).1 = l ∧ vs.length = l.length := by
  intro l
  induction l with
  | nil =>
    intro s vs s₁ h
    rw [readFields] at h
    simp only [Except.ok.injEq, Prod.mk.injEq] at h
    obtain ⟨h1, -⟩ := h
    subst h1
    exact ⟨rfl, rfl⟩
  | cons n t ih =>
    intro s vs s₁ h
    cases hrf : rf n s with
    | error e =>
      simp only [readFields, hrf] at h
      simp at h
    | ok p =>
      obtain ⟨v, s'⟩ := p
      rcases hr : readFields rf t s' with ⟨tr, r⟩
      cases r with
      | error e =>
        simp only [readFields, hrf, hr] at h
        simp at h
      | ok q =>
        obtain ⟨vs', s₂⟩ := q
        simp only [readFields, hrf, hr, Except.ok.injEq, Prod.mk.injEq] at h
        obtain ⟨hvs, -⟩ := h
        have hih := ih s' vs' s₂ (by rw [hr])
        have htr : tr = t := by
          have hfst := congrArg Prod.fst hr
          simp only at hfst
          rw [← hfst, hih.1]
        constructor
        · simp only [readFields, hrf, hr]
          rw [htr]
        · rw [← hvs]
          simp only [List.length_cons, hih.2]

theorem readFields_pre_error (rf : String → σ → Except E (V × σ)) :
    ∀ (pre post : List String) (nm : String) (s s₁ : σ) (vs : List V) (e : E),
      readFields rf pre s = (pre, Except.ok (vs, s₁)) →
      rf nm s₁ = Except.error e →
      readFields rf (pre ++ nm :: post) s = (pre ++ [nm], Except.error e) := by
  intro pre
  induction pre with
  | nil =>
    intro post nm s s₁ vs e h he
    rw [readFields] at h
    simp only [Prod.mk.injEq, Except.ok.injEq] at h
    obtain ⟨-, -, hs⟩ := h
    rw [List.nil_append, List.nil_append, readFields, hs, he]
  | cons m t ih =>
    intro post nm s s₁ vs e h he
    cases hrf : rf m s with
    | error e' =>
      simp only [readFields, hrf] at h
      simp at h
    | ok p =>
      obtain ⟨v, s'⟩ := p
      rcases hr : readFields rf t s' with ⟨tr, r⟩
      cases r with
      | error e' =>
        simp only [readFields, hrf, hr] at h
        simp at h
      | ok q =>
        obtain ⟨vs', s₂⟩ := q
        simp only [readFields, hrf, hr, Prod.mk.injEq, List.cons.injEq,
          Except.ok.injEq, true_and] at h
        obtain ⟨htr, -, hs⟩ := h
        have hpre : readFields rf t s' = (t, Except.ok (vs', s₁)) := by
          rw [hr, htr, hs]
        rw [List.cons_append]
        simp only [readFields, hrf]
        rw [ih post nm s' s₁ vs' e hpre he]
        rfl

/-- C5: every per-field operation in the generated code aborts on the first
backend error and surfaces it unchanged — if the calls before some field all
succeed and that field's `write_field` (in `StoreData::write` or
`Query::write`) or `read_field` (in `StoreData::read`) returns `error e`, the
generated body returns `error e` itself, and its call trace stops at the
failing call: no later field is attempted, no retry happens, and no other
error is mixed in. -/
theorem C5_first_error_propagation {τ : Type} (wf : String → V → σ → Except E σ)
    (rf : String → τ → Except E (V × τ)) :
    (∀ (pre post : List (String × V)) (n : String) (v : V) (s s₁ : σ) (e : E),
      writeFields wf pre s = (pre, Except.ok s₁) →
      wf n v s₁ = Except.error e →
      storeData_write wf (pre ++ (n, v) :: post) s = (pre ++ [(n, v)], Except.error e)) ∧
    (∀ (qpre qpost : List (String × Option V)) (tr : List (String × V))
        (n : String) (v : V) (s s₁ : σ) (e : E),
      queryWriteFields wf qpre s = (tr, Except.ok s₁) →
      wf n v s₁ = Except.error e →
      queryWriteFields wf (qpre ++ (n, some v) :: qpost) s = (tr ++ [(n, v)], Except.error e)) ∧
    (∀ (pre post : List String) (nm : String) (s s₁ : τ) (vs : List V) (e : E),
      readFields rf pre s = (pre, Except.ok (vs, s₁)) →
      rf nm s₁ = Except.error e →
      readFields rf (pre ++ nm :: post) s = (pre ++ [nm], Except.error e) ∧
      storeData_read rf (pre ++ nm :: post) s = Except.error e) := by
  refine ⟨?_, ?_, ?_⟩
  · intro pre post n v s s₁ e h he
    rw [storeData_write, writeFields_append_ok wf pre ((n, v) :: post) s s₁ pre h,
      writeFields]
    rw [he]
  · intro qpre qpost tr n v s s₁ e h he
    rw [queryWriteFields_append_ok wf qpre ((n, some v) :: qpost) s s₁ tr h,
      queryWriteFields]
    rw [he]
  · intro pre post nm s s₁ vs e h he
    have hrd := readFields_pre_error rf pre post nm s s₁ vs e h he
    refine ⟨hrd, ?_⟩
    rw [storeData_read, hrd]

/-- Witness for C5: a writer failing on value `0`, a query with an unset middle
slot and a failing set slot, and a reader whose state allows one successful
read; in each case the trace stops at the failing call and the backend error is
returned unchanged. -/
theorem C5_first_error_propagation_witness :
    writeFields failOnZeroWriter [("a", 1)] ([] : List (String × Nat))
      = ([("a", 1)], Except.ok [("a", 1)]) ∧
    failOnZeroWriter "b" 0 [("a", 1)] = Except.error () ∧
    storeData_write failOnZeroWriter [("a", 1), ("b", 0), ("c", 2)] []
      = ([("a", 1), ("b", 0)], Except.error ()) ∧
    queryWriteFields failOnZeroWriter [("a", some 1), ("b", none)] []
      = ([("a", 1)], Except.ok [("a", 1)]) ∧
    queryWriteFields failOnZeroWriter
        [("a", some 1), ("b", none), ("c", some 0), ("d", some 3)] []
      = ([("a", 1), ("c", 0)], Except.error ()) ∧
    readFields countdownReader ["a"] 1 = (["a"], Except.ok ([7], 0)) ∧
    countdownReader "b" 0 = Except.error () ∧
    readFields countdownReader ["a", "b", "c"] 1 = (["a", "b"], Except.error ()) ∧
    storeData_read countdownReader ["a", "b", "c"] 1
      = (Except.error () : Except Unit (List (String × Nat) × Nat)) := by
  have hthm := C5_first_error_propagation failOnZeroWriter countdownReader
  have h1 : writeFields failOnZeroWriter [("a", 1)] ([] : List (String × Nat))
      = ([("a", 1)], Except.ok [("a", 1)]) := rfl
  have h2 : failOnZeroWriter "b" 0 [("a", 1)] = Except.error () := rfl
  have h3 : queryWriteFields failOnZeroWriter [("a", some 1), ("b", none)] []
      = ([("a", 1)], Except.ok [("a", 1)]) := rfl
  have h4 : readFields countdownReader ["a"] 1 = (["a"], Except.ok ([7], 0)) := rfl
  have h5 : countdownReader "b" 0 = Except.error () := rfl
  have hread := hthm.2.2 ["a"] ["c"] "b" 1 0 [7] () h4 h5
  exact ⟨h1, h2, hthm.1 [("a", 1)] [("c", 2)] "b" 0 [] [("a", 1)] () h1 h2,
    h3, hthm.2.1 [("a", some 1), ("b", none)] [("d", some 3)] [("a", 1)] "c" 0 []
      [("a", 1)] () h3 h2, h4, h5, hread.1, hread.2⟩

/-- C8: the synthesized `StoreData::read` issues exactly one
`read_field(name_i)` call per field, in declaration order (on a successful run
its call trace is exactly the declared name list), binds one value per field,
and constructs the record only after every read has succeeded, associating the
i-th read value with the i-th declared field; if the read prefix fails no
record is constructed and the error is returned. -/
theorem C8_storedata_read_order (rf : String → σ → Except E (V × σ))
    (names : List String) (s : σ) :
    (∀ (vs : List V) (s₁ : σ),
      (readFields rf names s).2 = Except.ok (vs, s₁) →
      (readFields rf names s).1 = names ∧ vs.length = names.length ∧
      storeData_read rf names s = Except.ok (names.zip vs, s₁)) ∧
    (∀ e : E, (readFields rf names s).2 = Except.error e →
      storeData_read rf names s = Except.error e) := by
  constructor
  · intro vs s₁ h
    have hok := readFields_ok_trace rf names s vs s₁ h
    refine ⟨hok.1, hok.2, ?_⟩
    rw [storeData_read, h]
  · intro e h
    rw [storeData_read, h]

/-- Witness for C8 at a two-field record over a reader that returns the values
`7, 6` in sequence (state is a countdown): the trace is the declared name list
and the record binds the values in read order. -/
theorem C8_storedata_read_order_witness :
    (readFields countdownReader ["id", "name"] 2).2 = Except.ok ([7, 7], 0) ∧
    (readFields countdownReader ["id", "name"] 2).1 = ["id", "name"] ∧
    storeData_read countdownReader ["id", "name"] 2
      = Except.ok ([("id", 7), ("name", 7)], 0) := by
  have h : (readFields countdownReader ["id", "name"] 2).2 = Except.ok ([7, 7], 0) := rfl
  have hc := (C8_storedata_read_order countdownReader ["id", "name"] 2).1 [7, 7] 0 h
  exact ⟨h, hc.1, hc.2.2⟩

theorem lookup_self_of_nodup_keys (x : List (String × V))
    (h : (x.map Prod.fst).Nodup) :
    ∀ p ∈ x, x.lookup p.1 = some p.2 := by
  induction x with
  | nil => intro p hp; simp at hp
  | cons q t ih =>
    obtain ⟨n, v⟩ := q
    simp only [List.map_cons, List.nodup_cons] at h
    intro p hp
    rcases List.mem_cons.mp hp with hph | hpt
    · subst hph
      simp [List.lookup]
    · have hne : p.1 ≠ n := by
        intro hc
        exact h.1 (hc ▸ List.mem_map_of_mem Prod.fst hpt)
      rw [List.lookup]
      have hbeq : (p.1 == n) = false := beq_eq_false_iff_ne.mpr hne
      simp only [hbeq]
      exact ih h.2 p hpt

theorem readFields_lossless_channel (c : List (String × V)) (e : E) :
    ∀ (x : List (String × V)) (s : Unit),
      (∀ p ∈ x, c.lookup p.1 = some p.2) →
      readFields (losslessChannelRead c e) (x.map Prod.fst) s
        = (x.map Prod.fst, Except.ok (x.map Prod.snd, s)) := by
  intro x
  induction x with
  | nil => intro s _; rfl
  | cons p t ih =>
    intro s hc
    obtain ⟨n, v⟩ := p
    have hn : c.lookup n = some v := hc (n, v) (List.mem_cons_self _ _)
    have hrd : losslessChannelRead c e n s = Except.ok (v, s) := by
      rw [losslessChannelRead]
      rw [hn]
    simp only [List.map_cons, readFields, hrd]
    rw [ih s (fun q hq => hc q (List.mem_cons_of_mem _ hq))]

/-- C1: round-trip — for every record value `x` (its ordered field list), the
channel produced by the synthesized `StoreData::write(x)` over a lossless
writer holds exactly `x`'s field/value pairs, and the synthesized
`StoreData::read` over that channel (which returns, per field name, exactly the
value written under that name) succeeds and yields a value equal to `x`. -/
theorem C1_storedata_roundtrip (x : List (String × V)) (e : E)
    (h : (x.map Prod.fst).Nodup) :
    (storeData_write (E := E) logWriter x []).2 = Except.ok x ∧
    storeData_read (losslessChannelRead x e) (x.map Prod.fst) ()
      = Except.ok (x, ()) := by
  constructor
  · rw [storeData_write, writeFields_log]
    simp
  · rw [storeData_read]
    rw [readFields_lossless_channel x e x () (lookup_self_of_nodup_keys x h)]
    have hz : (x.map Prod.fst).zip (x.map Prod.snd) = x := by
      have hu := List.zip_unzip x
      rw [List.unzip_eq_map] at hu
      exact hu
    simp only [hz]

/-- Witness for C1 at the record `{ id: 3, name: 9 }`. -/
theorem C1_storedata_roundtrip_witness :
    (([("id", 3), ("name", 9)] : List (String × Nat)).map Prod.fst).Nodup ∧
    (storeData_write (E := Unit) logWriter [("id", 3), ("name", 9)] []).2
      = Except.ok [("id", 3), ("name", 9)] ∧
    storeData_read (losslessChannelRead [("id", 3), ("name", 9)] ()) ["id", "name"] ()
      = Except.ok ([("id", 3), ("name", 9)], ()) := by
  have h : (([("id", 3), ("name", 9)] : List (String × Nat)).map Prod.fst).Nodup := by
    decide
  have hc := C1_storedata_roundtrip [("id", 3), ("name", 9)] () h
  exact ⟨h, hc.1, hc.2⟩

end WriteRead

section NameResolution

/-- C6: the synthesized `Descriptor::ident` returns the `#[datastore(name = "X")]`
override when the record declaration carries that attribute, and otherwise the
record type's own local identifier. -/
theorem C6_descriptor_ident_resolution :
    (∀ (x t : String), descriptor_ident [Attr.name x] t = x) ∧
    (∀ t : String, descriptor_ident [] t = t) := by
  constructor
  · intro x t
    rfl
  · intro t
    rfl

/-- C10: with more than one `#[datastore(name = "...")]` attribute on a record,
`Attrs::name` finds the first one in declaration order and `ident()` returns
its value; the later name attributes are simply never consulted (parsing
accepts them and `find?` stops at the first), not rejected. -/
theorem C10_first_name_attribute_wins :
    (∀ (x : String) (rest : List Attr), Attrs.name (Attr.name x :: rest) = some x) ∧
    (∀ (x y t : String) (rest : List Attr),
      descriptor_ident (Attr.name x :: Attr.name y :: rest) t = x) := by
  constructor
  · intro x rest
    rfl
  · intro x y t rest
    rfl

end NameResolution

section Query

variable {V E σ : Type}

theorem query_apply_cons (q : List (Option V)) (p : Nat × V) (t : List (Nat × V)) :
    query_apply q (p :: t) = query_apply (query_set q p.1 p.2) t := rfl

theorem query_write_fresh (wf : String → V → σ → Except E σ) :
    ∀ (names : List String) (s : σ),
      query_write wf names (query_fresh V names.length) s = ([], Except.ok s) := by
  intro names
  induction names with
  | nil => intro s; rfl
  | cons n t ih =>
    intro s
    simp only [query_write, query_fresh] at ih ⊢
    simp only [List.length_cons, List.replicate_succ, List.zip_cons_cons, queryWriteFields]
    exact ih s

theorem queryWriteFields_log :
    ∀ (l : List (String × Option V)) (acc : List (String × V)),
      queryWriteFields (logWriter (E := E)) l acc
        = (l.filterMap (fun p => p.2.map (fun v => (p.1, v))),
           Except.ok (acc ++ l.filterMap (fun p => p.2.map (fun v => (p.1, v))))) := by
  intro l
  induction l with
  | nil => intro acc; simp [queryWriteFields]
  | cons p t ih =>
    intro acc
    obtain ⟨n, o⟩ := p
    cases o with
    | none =>
      rw [queryWriteFields]
      rw [ih acc]
      simp [List.filterMap_cons]
    | some v =>
      rw [queryWriteFields]
      simp only [logWriter]
      rw [ih (acc ++ [(n, v)])]
      simp [List.filterMap_cons]

theorem query_apply_getElem_not_mem :
    ∀ (sets : List (Nat × V)) (q : List (Option V)) (i : Nat),
      i ∉ sets.map Prod.fst →
      (query_apply q sets)[i]? = q[i]? := by
  intro sets
  induction sets with
  | nil => intro q i _; rfl
  | cons p t ih =>
    intro q i hi
    obtain ⟨j, w⟩ := p
    simp only [List.map_cons, List.mem_cons] at hi
    push_neg at hi
    rw [query_apply_cons]
    rw [ih (query_set q j w) i hi.2]
    rw [query_set]
    exact List.getElem?_set_ne (Ne.symm hi.1)

theorem query_apply_length :
    ∀ (sets : List (Nat × V)) (q : List (Option V)),
      (query_apply q sets).length = q.length := by
  intro sets
  induction sets with
  | nil => intro q; rfl
  | cons p t ih =>
    intro q
    rw [query_apply_cons, ih, query_set, List.length_set]

theorem query_apply_getElem :
    ∀ (sets : List (Nat × V)) (q : List (Option V)) (i : Nat),
      (sets.map Prod.fst).Nodup → i < q.length →
      (query_apply q sets)[i]?
        = (match sets.find? (fun p => p.1 == i) with
           | some p => some (some p.2)
           | none => q[i]?) := by
  intro sets
  induction sets with
  | nil => intro q i _ _; rfl
  | cons p t ih =>
    intro q i hnd hi
    obtain ⟨j, w⟩ := p
    simp only [List.map_cons, List.nodup_cons] at hnd
    rw [query_apply_cons]
    by_cases hji : j = i
    · subst hji
      rw [List.find?_cons_of_pos _ (by simp)]
      rw [query_apply_getElem_not_mem t (query_set q j w) j hnd.1]
      rw [query_set]
      exact List.getElem?_set_self hi
    · rw [List.find?_cons_of_neg _ (by simp [hji])]
      rw [ih (query_set q j w) i hnd.2 (by rw [query_set, List.length_set]; exact hi)]
      cases hf : t.find? (fun p => p.1 == i) with
      | some p => rfl
      | none =>
        show (query_set q j w)[i]? = q[i]?
        rw [query_set]
        exact List.getElem?_set_ne hji

theorem countP_set_some :
    ∀ (l : List (Option V)) (i : Nat) (v : V), l[i]? = some none →
      (l.set i (some v)).countP (fun o => o.isSome)
        = l.countP (fun o => o.isSome) + 1 := by
  intro l
  induction l with
  | nil => intro i v h; simp at h
  | cons a t ih =>
    intro i v h
    cases i with
    | zero =>
      simp only [List.getElem?_cons_zero, Option.some.injEq] at h
      subst h
      show ((some v :: t).countP (fun o => o.isSome))
          = ((none :: t).countP (fun o => o.isSome)) + 1
      simp [List.countP_cons]
    | succ i =>
      simp only [List.getElem?_cons_succ] at h
      show ((a :: t.set i (some v)).countP (fun o => o.isSome))
          = ((a :: t).countP (fun o => o.isSome)) + 1
      simp only [List.countP_cons, ih i v h]
      omega

theorem query_apply_countP :
    ∀ (sets : List (Nat × V)) (slots : List (Option V)),
      (sets.map Prod.fst).Nodup →
      (∀ p ∈ sets, slots[p.1]? = some none) →
      (query_apply slots sets).countP (fun o => o.isSome)
        = slots.countP (fun o => o.isSome) + sets.length := by
  intro sets
  induction sets with
  | nil => intro slots _ _; rfl
  | cons p t ih =>
    intro slots hnd hall
    obtain ⟨j, w⟩ := p
    simp only [List.map_cons, List.nodup_cons] at hnd
    rw [query_apply_cons]
    have hj : slots[j]? = some none := hall (j, w) (List.mem_cons_self _ _)
    rw [ih (query_set slots j w) hnd.2 ?_]
    · rw [query_set, countP_set_some slots j w hj, List.length_cons]
      omega
    · intro p hp
      have hpj : j ≠ p.1 := by
        intro hc
        exact hnd.1 (hc ▸ List.mem_map_of_mem Prod.fst hp)
      rw [query_set, List.getElem?_set_ne hpj]
      exact hall p (List.mem_cons_of_mem _ hp)

theorem query_fresh_countP (n : Nat) :
    (query_fresh V n).countP (fun o => o.isSome) = 0 := by
  rw [query_fresh]
  apply List.countP_eq_zero.mpr
  intro a ha
  rw [List.eq_of_mem_replicate ha]
  simp

theorem zip_filterMap_length :
    ∀ (names : List String) (slots : List (Option V)),
      names.length = slots.length →
      ((names.zip slots).filterMap (fun p => p.2.map (fun v => (p.1, v)))).length
        = slots.countP (fun o => o.isSome) := by
  intro names
  induction names with
  | nil =>
    intro slots h
    cases slots with
    | nil => rfl
    | cons o ts => simp at h
  | cons n t ih =>
    intro slots h
    cases slots with
    | nil => simp at h
    | cons o ts =>
      simp only [List.length_cons] at h
      simp only [List.zip_cons_cons, List.filterMap_cons, List.countP_cons]
      cases o with
      | none => simp [ih ts (by omega)]
      | some v => simp [ih ts (by omega)]

theorem eq_of_fst_eq_of_nodup_keys :
    ∀ (l : List (Nat × V)), (l.map Prod.fst).Nodup →
      ∀ x ∈ l, ∀ y ∈ l, x.1 = y.1 → x = y := by
  intro l
  induction l with
  | nil => intro _ x hx; simp at hx
  | cons a t ih =>
    intro hnd x hx y hy hxy
    simp only [List.map_cons, List.nodup_cons] at hnd
    rcases List.mem_cons.mp hx with hxa | hxt <;>
      rcases List.mem_cons.mp hy with hya | hyt
    · rw [hxa, hya]
    · exfalso
      subst hxa
      exact hnd.1 (hxy ▸ List.mem_map_of_mem Prod.fst hyt)
    · exfalso
      subst hya
      exact hnd.1 (hxy ▸ List.mem_map_of_mem Prod.fst hxt)
    · exact ih hnd.2 x hxt y hyt hxy

/-- C3: query partiality — a fresh (all-default) query issues zero
`write_field` calls under any backend; after a chain of fluent setter calls
`sets` on distinct field slots, slot `i` of the builder holds exactly the value
set for it (and `none` if unset), `Query::write` emits one (name, value) pair
per set slot with the set value, skipping unset slots, in field declaration
order, the number of emitted pairs equals the number of set slots, and the
resulting builder — hence the emission — does not depend on the order in which
the setter calls were made. -/
theorem C3_query_partiality (names : List String) (sets : List (Nat × V))
    (hnd : (sets.map Prod.fst).Nodup) (hlt : ∀ p ∈ sets, p.1 < names.length) :
    (∀ (wf : String → V → σ → Except E σ) (s : σ),
      query_write wf names (query_fresh V names.length) s = ([], Except.ok s)) ∧
    (∀ i, i < names.length →
      (query_apply (query_fresh V names.length) sets)[i]?
        = some ((sets.find? (fun p => p.1 == i)).map Prod.snd)) ∧
    (∀ acc : List (String × V),
      queryWriteFields (logWriter (E := E))
          (names.zip (query_apply (query_fresh V names.length) sets)) acc
        = ((names.zip (query_apply (query_fresh V names.length) sets)).filterMap
             (fun p => p.2.map (fun v => (p.1, v))),
           Except.ok (acc ++ (names.zip
             (query_apply (query_fresh V names.length) sets)).filterMap
             (fun p => p.2.map (fun v => (p.1, v)))))) ∧
    ((names.zip (query_apply (query_fresh V names.length) sets)).filterMap
        (fun p => p.2.map (fun v => (p.1, v)))).length = sets.length ∧
    (∀ sets' : List (Nat × V), sets'.Perm sets →
      query_apply (query_fresh V names.length) sets'
        = query_apply (query_fresh V names.length) sets) := by
  have hfreshlen : (query_fresh V names.length).length = names.length := by
    rw [query_fresh, List.length_replicate]
  refine ⟨fun wf s => query_write_fresh wf names s, ?_, fun acc => queryWriteFields_log _ acc,
    ?_, ?_⟩
  · intro i hi
    rw [query_apply_getElem sets (query_fresh V names.length) i hnd (by rw [hfreshlen]; exact hi)]
    cases hf : sets.find? (fun p => p.1 == i) with
    | some p => simp
    | none =>
      simp only [Option.map_none]
      rw [query_fresh]
      exact List.getElem?_replicate_of_lt hi
  · rw [zip_filterMap_length names (query_apply (query_fresh V names.length) sets)
      (by rw [query_apply_length, hfreshlen])]
    rw [query_apply_countP sets (query_fresh V names.length) hnd ?_]
    · rw [query_fresh_countP]
      omega
    · intro p hp
      rw [query_fresh]
      exact List.getElem?_replicate_of_lt (hlt p hp)
  · intro sets' hperm
    apply List.Perm.foldl_eq' hperm
    intro x hx y hy z
    by_cases hxy : x.1 = y.1
    · have : x = y := eq_of_fst_eq_of_nodup_keys sets hnd x (hperm.mem_iff.mp hx)
        y (hperm.mem_iff.mp hy) hxy
      rw [this]
    · show query_set (query_set z x.1 x.2) y.1 y.2 = query_set (query_set z y.1 y.2) x.1 x.2
      rw [query_set, query_set, query_set, query_set]
      exact List.set_comm _ _ _ hxy

/-- Witness for C3 at `names = ["a","b","c"]` with the setters for fields `c`
then `a` applied (out of declaration order): the fresh query emits nothing,
the final builder is `[some 10, none, some 30]`, write emits
`[("a",10), ("c",30)]` — declaration order, two pairs for two set slots — and
applying the same setters in the other order gives the same builder. -/
theorem C3_query_partiality_witness :
    (([(2, 30), (0, 10)] : List (Nat × Nat)).map Prod.fst).Nodup ∧
    (∀ p ∈ ([(2, 30), (0, 10)] : List (Nat × Nat)),
      p.1 < (["a", "b", "c"] : List String).length) ∧
    query_write (E := Unit) (σ := List (String × Nat)) logWriter ["a", "b", "c"]
      (query_fresh Nat 3) [] = ([], Except.ok []) ∧
    query_apply (query_fresh Nat 3) [(2, 30), (0, 10)] = [some 10, none, some 30] ∧
    queryWriteFields (logWriter (E := Unit))
        ((["a", "b", "c"] : List String).zip
          (query_apply (query_fresh Nat 3) [(2, 30), (0, 10)])) []
      = ([("a", 10), ("c", 30)], Except.ok [("a", 10), ("c", 30)]) ∧
    query_apply (query_fresh Nat 3) [(0, 10), (2, 30)]
      = query_apply (query_fresh Nat 3) [(2, 30), (0, 10)] := by
  have h1 : (([(2, 30), (0, 10)] : List (Nat × Nat)).map Prod.fst).Nodup := by decide
  have h2 : ∀ p ∈ ([(2, 30), (0, 10)] : List (Nat × Nat)),
      p.1 < (["a", "b", "c"] : List String).length := by decide
  have hthm := C3_query_partiality (E := Unit) (σ := List (String × Nat))
    ["a", "b", "c"] [(2, 30), (0, 10)] h1 h2
  have hslots : query_apply (query_fresh Nat 3) [(2, 30), (0, 10)]
      = [some 10, none, some 30] := by decide
  refine ⟨h1, h2, hthm.1 logWriter [], hslots, ?_, hthm.2.2.2.2 [(0, 10), (2, 30)] (by decide)⟩
  rw [hslots]
  rfl

/-- C9: each synthesized fluent setter for field `i` writes only slot `i`
(slot `i` afterwards holds the set value, every other slot is unchanged), and a
second call to the same field's setter overwrites the first, so `Query::write`
emits the most recently set value (last write wins). -/
theorem C9_query_setter_frame (q : List (Option V)) (i j : Nat) (v v₁ v₂ : V)
    (hj : j ≠ i) (hi : i < q.length) :
    (query_set q i v)[i]? = some (some v) ∧
    (query_set q i v)[j]? = q[j]? ∧
    query_set (query_set q i v₁) i v₂ = query_set q i v₂ ∧
    (∀ (wf : String → V → σ → Except E σ) (names : List String) (s : σ),
      query_write wf names (query_set (query_set q i v₁) i v₂) s
        = query_write wf names (query_set q i v₂) s) := by
  have hset : query_set (query_set q i v₁) i v₂ = query_set q i v₂ := by
    rw [query_set, query_set, query_set, List.set_set]
  refine ⟨?_, ?_, hset, ?_⟩
  · rw [query_set]
    exact List.getElem?_set_self hi
  · rw [query_set]
    exact List.getElem?_set_ne (Ne.symm hj)
  · intro wf names s
    rw [hset]

/-- Witness for C9 at the builder `[some 1, none]`: setting slot 1 leaves slot
0 untouched, and setting slot 1 twice keeps only the second value, also through
`Query::write`. -/
theorem C9_query_setter_frame_witness :
    (0 : Nat) ≠ 1 ∧ 1 < ([some 1, none] : List (Option Nat)).length ∧
    (query_set ([some 1, none] : List (Option Nat)) 1 5)[1]? = some (some 5) ∧
    (query_set ([some 1, none] : List (Option Nat)) 1 5)[0]? = some (some 1) ∧
    query_set (query_set ([some 1, none] : List (Option Nat)) 1 7) 1 9
      = query_set [some 1, none] 1 9 ∧
    query_write (E := Unit) logWriter ["a", "b"]
        (query_set (query_set ([some 1, none] : List (Option Nat)) 1 7) 1 9) []
      = query_write (E := Unit) logWriter ["a", "b"]
        (query_set [some 1, none] 1 9) [] := by
  have h1 : (0 : Nat) ≠ 1 := by decide
  have h2 : 1 < ([some 1, none] : List (Option Nat)).length := by decide
  have hc := C9_query_setter_frame (E := Unit) (σ := List (String × Nat))
    [some 1, none] 1 0 5 7 9 h1 h2
  refine ⟨h1, h2, hc.1, ?_, hc.2.2.1, hc.2.2.2 logWriter ["a", "b"] []⟩
  rw [hc.2.1]
  decide

end Query

end Datastore
